import Mathlib

/-!
Verification development for the disk_pie repository (src/src/main.rs), a
disk-usage sunburst visualizer.  The Rust source is shallowly embedded:

* `DirEntry` mirrors the Rust struct `DirEntry` (main.rs lines 30-36).  The
  `color : f32` field, a draw-order counter consumed only by the renderer, is
  not modelled: no claim concerns colors.
* The filesystem is abstracted as `FSNode`; `scan_dir` (main.rs lines 42-113)
  is modelled as a sequential function.  The thread spawning only changes
  scheduling: every child result is written to its own pre-sized slot, and all
  spawned workers are joined before the parent sums sizes, so the resulting
  values coincide with the sequential ones.  The bounded-concurrency counter
  discipline itself is modelled separately as a transition system.
* Machine integers (u64 sizes, u32 counters) are modelled as `Nat`; no claim
  exercises overflow.  The f32 angle/coordinate arithmetic is modelled exactly
  over an arbitrary `LinearOrderedField` (instantiated at `ℚ` for concrete
  evaluations and at `ℝ` for statements mentioning `π`).
* Fallible operations (`read_dir`, the size queries, `unwrap` panics) are
  modelled with `Option`: `none` both for a failed query and for a panic that
  aborts the scan.
-/

namespace DiskPie

/-- Mirrors the Rust struct `DirEntry` (main.rs lines 30-36), minus the
`color : f32` rendering counter.  `subdir = none` is a file, `subdir = some l`
a scanned directory with child list `l`. -/
inductive DirEntry where
  | mk (name : String) (size : Nat) (subdir : Option (List DirEntry))

def DirEntry.name : DirEntry → String
  | .mk n _ _ => n

def DirEntry.size : DirEntry → Nat
  | .mk _ s _ => s

def DirEntry.subdir : DirEntry → Option (List DirEntry)
  | .mk _ _ d => d

instance : Inhabited DirEntry := ⟨.mk "" 0 none⟩

@[simp] theorem DirEntry.size_mk (n : String) (s : Nat) (o : Option (List DirEntry)) :
    (DirEntry.mk n s o).size = s := rfl

@[simp] theorem DirEntry.subdir_mk (n : String) (s : Nat) (o : Option (List DirEntry)) :
    (DirEntry.mk n s o).subdir = o := rfl

@[simp] theorem DirEntry.name_mk (n : String) (s : Nat) (o : Option (List DirEntry)) :
    (DirEntry.mk n s o).name = n := rfl

/-- The size aggregation loop of `scan_dir` (main.rs lines 101-104): the sum of
the sizes of a list of entries. -/
def sumSizes (l : List DirEntry) : Nat := (l.map DirEntry.size).sum

@[simp] theorem sumSizes_nil : sumSizes [] = 0 := rfl

@[simp] theorem sumSizes_cons (e : DirEntry) (l : List DirEntry) :
    sumSizes (e :: l) = e.size + sumSizes l := by
  simp [sumSizes]

mutual

/-- The recursive size invariant: every directory node of the tree carries the
exact sum of the sizes of its children. -/
def goodSizes : DirEntry → Bool
  | .mk _ _ none => true
  | .mk _ sz (some ch) => (sz == sumSizes ch) && goodList ch

def goodList : List DirEntry → Bool
  | [] => true
  | e :: es => goodSizes e && goodList es

end

/-- Abstract filesystem seen by the scanner.  A file carries the result of the
primary size query (`get_disk_size`, main.rs lines 15-26) and of the secondary
logical-size query (`metadata().file_size()`, main.rs line 84); `none` means
the query fails.  A directory carries the result of `read_dir`: `none` when
listing fails. -/
inductive FSNode where
  | file (name : String) (primaryQuery : Option Nat) (secondaryQuery : Option Nat)
  | dir (name : String) (listing : Option (List FSNode))

/-- The file-size computation of main.rs line 84:
`get_disk_size(path).unwrap_or_else(|_| entry.metadata().unwrap().file_size())`.
The primary result is used when available; otherwise the secondary query is
consulted, and its failure is an `unwrap` panic (`none`). -/
def fileSizeQuery (primaryQuery secondaryQuery : Option Nat) : Option Nat :=
  match primaryQuery with
  | some v => some v
  | none => secondaryQuery

mutual

/-- Sequential model of `scan_dir` (main.rs lines 42-113) together with its
helpers.  `scan_dir nm listing` returns the `(size, children)` pair plus the
list of logged diagnostics (one `println` with the path per unreadable
directory, main.rs line 109); `none` models a panic aborting the scan. -/
def scan_dir (nm : String) : Option (List FSNode) → Option ((Nat × List DirEntry) × List String)
  | none => some ((0, []), [nm])
  | some entries =>
    match scanEntries entries with
    | none => none
    | some (des, logs) => some ((sumSizes des, des), logs)

def scanEntries : List FSNode → Option (List DirEntry × List String)
  | [] => some ([], [])
  | e :: es =>
    match scanChild e, scanEntries es with
    | some (d, l1), some (ds, l2) => some (d :: ds, l1 ++ l2)
    | _, _ => none

def scanChild : FSNode → Option (DirEntry × List String)
  | .file n p s =>
    match fileSizeQuery p s with
    | some v => some (.mk n v none, [])
    | none => none
  | .dir n listing =>
    match scan_dir n listing with
    | none => none
    | some ((sz, ch), logs) => some (.mk n sz (some ch), logs)

end

/-- Unfolding lemmas for the scan on a failed listing. -/
theorem scan_dir_failed (nm : String) : scan_dir nm none = some ((0, []), [nm]) := by
  simp [scan_dir]

section ScanInvariant

/-- Auxiliary pair of statements for the size invariant, proved by strong
induction on the size of the scanned filesystem value. -/
theorem scanGoodAux :
    ∀ n : Nat,
      (∀ e : FSNode, sizeOf e ≤ n → ∀ d logs, scanChild e = some (d, logs) →
        goodSizes d = true) ∧
      (∀ es : List FSNode, sizeOf es ≤ n → ∀ ds logs, scanEntries es = some (ds, logs) →
        goodList ds = true) := by
  intro n
  induction n using Nat.strong_induction_on with
  | _ n ih =>
    constructor
    · intro e he d logs h
      match e with
      | .file nm p s =>
        rw [scanChild] at h
        rcases hq : fileSizeQuery p s with _ | v <;> rw [hq] at h
        · exact absurd h (by simp)
        · simp only [Option.some.injEq, Prod.mk.injEq] at h
          rw [← h.1, goodSizes]
      | .dir nm listing =>
        rw [scanChild] at h
        rcases hl : scan_dir nm listing with _ | ⟨⟨sz, ch⟩, lg⟩ <;> rw [hl] at h
        · exact absurd h (by simp)
        · simp only [Option.some.injEq, Prod.mk.injEq] at h
          rcases listing with _ | entries
          · rw [scan_dir] at hl
            simp only [Option.some.injEq, Prod.mk.injEq] at hl
            rw [← h.1, goodSizes, ← hl.1.1, ← hl.1.2]
            simp [goodList, sumSizes]
          · rw [scan_dir] at hl
            rcases hes : scanEntries entries with _ | ⟨des, lgs⟩ <;> rw [hes] at hl
            · exact absurd hl (by simp)
            · simp only [Option.some.injEq, Prod.mk.injEq] at hl
              have hlt : sizeOf entries < n := by
                have h1 : sizeOf entries < sizeOf (FSNode.dir nm (some entries)) := by
                  simp
                  omega
                omega
              have := (ih (sizeOf entries) hlt).2 entries (Nat.le_refl _) des lgs hes
              rw [← h.1, goodSizes, ← hl.1.1, ← hl.1.2]
              simp [this]
    · intro es he ds logs h
      match es with
      | [] =>
        rw [scanEntries] at h
        simp only [Option.some.injEq, Prod.mk.injEq] at h
        rw [← h.1, goodList]
      | e :: rest =>
        rw [scanEntries] at h
        rcases hc : scanChild e with _ | ⟨d, l1⟩ <;> rw [hc] at h
        · exact absurd h (by simp)
        · rcases hr : scanEntries rest with _ | ⟨ds2, l2⟩ <;> rw [hr] at h
          · exact absurd h (by simp)
          · simp only [Option.some.injEq, Prod.mk.injEq] at h
            have he1 : sizeOf e < n := by
              have : sizeOf e < sizeOf (e :: rest) := by
                rw [List.cons.sizeOf_spec]; omega
              omega
            have he2 : sizeOf rest < n := by
              have : sizeOf rest < sizeOf (e :: rest) := by
                rw [List.cons.sizeOf_spec]; omega
              omega
            have g1 := (ih (sizeOf e) he1).1 e (Nat.le_refl _) d l1 hc
            have g2 := (ih (sizeOf rest) he2).2 rest (Nat.le_refl _) ds2 l2 hr
            rw [← h.1]
            simp [goodList, g1, g2]

end ScanInvariant

/-! Concurrency-counter model.  `scan_dir` (main.rs lines 55-97) spawns a
worker for a subdirectory only after checking and incrementing the
mutex-guarded counter under the lock (lines 56-59), and decrements the counter
under the lock after joining the worker (line 96).  Because the
check-and-increment happens inside one critical section, the lock discipline
is modelled as a transition system whose atomic steps are those critical
sections, plus a worker-exit step (a worker that finished running but has not
yet been joined and decremented is still counted, which only over-counts). -/

/-- Mirrors `MAX_THREAD_COUNT` (main.rs line 38). -/
def MAX_THREAD_COUNT : Nat := 32

/-- Global state of the concurrency bookkeeping: the value of the
mutex-guarded counter and the number of currently active scan workers. -/
structure ScanSysState where
  counter : Nat
  workers : Nat
deriving DecidableEq

/-- Atomic transitions of the scan concurrency discipline (main.rs lines
55-97): `spawn` is the critical section at lines 56-59 followed by the thread
spawn, enabled only when the counter is below the cap; `exitWorker` is a
worker finishing its scan; `joinDec` is the decrement at line 96 after joining
a worker that already exited (hence `workers < counter`). -/
inductive ScanStep : ScanSysState → ScanSysState → Prop where
  | spawn (s : ScanSysState) (h : s.counter < MAX_THREAD_COUNT) :
      ScanStep s ⟨s.counter + 1, s.workers + 1⟩
  | exitWorker (s : ScanSysState) (h : 0 < s.workers) :
      ScanStep s ⟨s.counter, s.workers - 1⟩
  | joinDec (s : ScanSysState) (h : s.workers < s.counter) :
      ScanStep s ⟨s.counter - 1, s.workers⟩

/-- Initial state: `main` (main.rs line 519) starts the scan with the counter
at 1, the main thread being the one active scan worker. -/
def scanInit : ScanSysState := ⟨1, 1⟩

theorem scanStep_inv {s t : ScanSysState} (h : ScanStep s t)
    (hs : s.workers ≤ s.counter ∧ s.counter ≤ MAX_THREAD_COUNT) :
    t.workers ≤ t.counter ∧ t.counter ≤ MAX_THREAD_COUNT := by
  cases h <;> simp only [MAX_THREAD_COUNT] at * <;> omega

theorem scanReach_inv {s : ScanSysState}
    (h : Relation.ReflTransGen ScanStep scanInit s) :
    s.workers ≤ s.counter ∧ s.counter ≤ MAX_THREAD_COUNT := by
  induction h with
  | refl => simp [scanInit, MAX_THREAD_COUNT]
  | tail _ hstep ih => exact scanStep_inv hstep ih

/-- C1: for every tree returned by the scanner, and recursively for every
directory node in it, the size equals the exact sum of the sizes of the
children, at scan completion, up to the root; this includes directories whose
listing failed, which carry size 0 and no children. -/
theorem scan_size_invariant (nm : String) (listing : Option (List FSNode))
    (res : (Nat × List DirEntry) × List String)
    (h : scan_dir nm listing = some res) :
    res.1.1 = sumSizes res.1.2 ∧ goodList res.1.2 = true := by
  rcases listing with _ | entries
  · rw [scan_dir] at h
    simp only [Option.some.injEq] at h
    rw [← h]
    exact ⟨rfl, rfl⟩
  · rw [scan_dir] at h
    rcases hes : scanEntries entries with _ | ⟨des, lgs⟩ <;> rw [hes] at h
    · exact absurd h (by simp)
    · simp only [Option.some.injEq] at h
      have := (scanGoodAux (sizeOf entries)).2 entries (Nat.le_refl _) des lgs hes
      rw [← h]
      exact ⟨rfl, this⟩

/-- Witness for C1 at a concrete filesystem: a readable root holding one file
of size 3 and one unreadable subdirectory. -/
theorem scan_size_invariant_witness :
    scan_dir "r" (some [FSNode.file "a" (some 3) none, FSNode.dir "d" none]) =
      some ((3, [DirEntry.mk "a" 3 none, DirEntry.mk "d" 0 (some [])]), ["d"]) ∧
    ((3, [DirEntry.mk "a" 3 none, DirEntry.mk "d" 0 (some [])]), ["d"]).1.1 =
      sumSizes ((3, [DirEntry.mk "a" 3 none, DirEntry.mk "d" 0 (some [])]), ["d"]).1.2 ∧
    goodList ((3, [DirEntry.mk "a" 3 none, DirEntry.mk "d" 0 (some [])]), ["d"]).1.2 = true :=
  by
  have h : scan_dir "r" (some [FSNode.file "a" (some 3) none, FSNode.dir "d" none]) =
      some ((3, [DirEntry.mk "a" 3 none, DirEntry.mk "d" 0 (some [])]), ["d"]) := by
    simp [scan_dir, scanEntries, scanChild, fileSizeQuery, sumSizes, DirEntry.size]
  exact ⟨h, scan_size_invariant _ _ _ h⟩

/-- C5: under the modelled lock discipline of `scan_dir` (check-and-increment
of the mutex-guarded counter under the lock before spawning, decrement under
the lock after joining), the number of concurrently active scan workers never
exceeds `MAX_THREAD_COUNT` in any reachable state. -/
theorem scan_workers_bounded (s : ScanSysState)
    (h : Relation.ReflTransGen ScanStep scanInit s) :
    s.workers ≤ MAX_THREAD_COUNT :=
  le_trans (scanReach_inv h).1 (scanReach_inv h).2

/-- Witness for C5: the initial state is reachable and satisfies the bound. -/
theorem scan_workers_bounded_witness :
    Relation.ReflTransGen ScanStep scanInit scanInit ∧
      scanInit.workers ≤ MAX_THREAD_COUNT :=
  ⟨Relation.ReflTransGen.refl,
   scan_workers_bounded scanInit Relation.ReflTransGen.refl⟩

/-- C7 counterexample: a file for which the primary size query
(`get_disk_size`) and the secondary logical-size query both fail makes the
scan panic (modelled as `none`); the scanner does not apply a size-0 fallback
and does not continue. -/
theorem file_size_no_fallback_counterexample :
    scanChild (FSNode.file "f" none none) = none := by
  simp [scanChild, fileSizeQuery]

/-- C7 amended: a file whose size cannot be determined by the primary query
falls back to the secondary logical-size query; but if the secondary query
also fails, the scan panics (the `unwrap` at main.rs line 84) instead of
applying a deterministic fallback. -/
theorem file_size_fallback (n : String) (p v : Nat) (s : Option Nat) :
    scanChild (FSNode.file n (some p) s) = some (DirEntry.mk n p none, []) ∧
    scanChild (FSNode.file n none (some v)) = some (DirEntry.mk n v none, []) ∧
    scanChild (FSNode.file n none none) = none := by
  refine ⟨?_, ?_, ?_⟩ <;> simp [scanChild, fileSizeQuery]

/-- C8: a directory whose listing fails yields size 0 and an empty child
list, the failure is logged (the path is appended to the diagnostics), and
scanning continues with the siblings of the failed directory instead of
aborting. -/
theorem scan_failed_listing (nm : String) (rest : List FSNode) :
    scan_dir nm none = some ((0, []), [nm]) ∧
    scanChild (FSNode.dir nm none) = some (DirEntry.mk nm 0 (some []), [nm]) ∧
    scanEntries (FSNode.dir nm none :: rest) =
      (scanEntries rest).map
        (fun p => (DirEntry.mk nm 0 (some []) :: p.1, nm :: p.2)) := by
  refine ⟨scan_dir_failed nm, ?_, ?_⟩
  · simp [scanChild, scan_dir]
  · rw [scanEntries]
    simp only [scanChild, scan_dir]
    rcases scanEntries rest with _ | ⟨ds, ls⟩ <;> simp

/-! Geometry: the layout loop of `draw_dir_entry` (main.rs lines 156-200) and
the picker `find_file` (main.rs lines 338-362).  The f32 arithmetic is
modelled exactly over an arbitrary linear ordered field, so every definition
stays computable (evaluable at `ℚ`) while statements about `π` instantiate at
`ℝ`. -/

section Geometry

variable {α : Type} [LinearOrderedField α]

/-- Mirrors the constant `N` (main.rs line 133), the asymptotic maximum
radius. -/
def N : α := 5

/-- The depth-dependent ring radius `N - N * ((N-1)/N)^distance` (main.rs
lines 164 and 340). -/
def ringRadius (d : Nat) : α := N - N * ((N - 1) / N) ^ d

/-- The node radius used by `find_file` (main.rs lines 339-342): the ring
radius at the given depth for a directory, `N` for a file. -/
def findRadius (e : DirEntry) (d : Nat) : α :=
  if e.subdir.isSome then ringRadius d else N

/-- The per-child angular span
`subdir_entry.size as f32 / dir_entry.size as f32 * (end_angle - start_angle)`
(main.rs lines 176 and 351). -/
def deltaOf (psize : Nat) (sa ea : α) (c : DirEntry) : α :=
  (c.size : α) / (psize : α) * (ea - sa)

/-- One recursive draw call emitted by the child loop of `draw_dir_entry`:
the child index used for the drawn entry, the start angle, the angular span,
and whether recursion stays enabled (`false` for a carry-merged slice). -/
structure Slice (α : Type) where
  idx : Nat
  start : α
  delta : α
  recur : Bool
deriving DecidableEq

/-- The child loop of `draw_dir_entry` (main.rs lines 169-198).  State:
remaining children, current child index, current angle, accumulated
`angle_delta_carry`, and the index of the carry representative
(`subdir_entry_carry`).  Returns the list of recursive draw calls made at this
level together with the final unflushed carry. -/
def layoutGoFull (psize : Nat) (scale sa ea : α) :
    List DirEntry → Nat → α → α → Option Nat → List (Slice α) × α
  | [], _, _, carry, _ => ([], carry)
  | c :: rest, i, angle, carry, rep =>
    if c.size = 0 then
      layoutGoFull psize scale sa ea rest (i + 1) angle carry rep
    else
      let delta := deltaOf psize sa ea c
      if 1 ≤ delta * scale * N then
        match rep with
        | some r =>
          let res := layoutGoFull psize scale sa ea rest (i + 1) (angle + carry + delta) 0 none
          (⟨r, angle, carry, false⟩ :: ⟨i, angle + carry, delta, true⟩ :: res.1, res.2)
        | none =>
          let res := layoutGoFull psize scale sa ea rest (i + 1) (angle + delta) 0 none
          (⟨i, angle, delta, true⟩ :: res.1, res.2)
      else
        let carry2 := carry + delta
        let rep2 := rep.getD i
        if 1 ≤ carry2 * scale * N then
          let res := layoutGoFull psize scale sa ea rest (i + 1) (angle + carry2) 0 none
          (⟨rep2, angle, carry2, false⟩ :: res.1, res.2)
        else
          layoutGoFull psize scale sa ea rest (i + 1) angle carry2 (some rep2)

/-- The recursive draw calls emitted by one run of the child loop of
`draw_dir_entry` over a full child list. -/
def layoutSlices (psize : Nat) (scale sa ea : α) (ch : List DirEntry) : List (Slice α) :=
  (layoutGoFull psize scale sa ea ch 0 sa 0 none).1

/-- The unflushed trailing carry left over after the child loop of
`draw_dir_entry` ends. -/
def layoutCarry (psize : Nat) (scale sa ea : α) (ch : List DirEntry) : α :=
  (layoutGoFull psize scale sa ea ch 0 sa 0 none).2

/-- One call of `draw_dir_entry` (main.rs lines 156-200), modelled as the
recursive draw calls it makes: the angular cull test (lines 157-161, with the
wrap-through-zero special case), the radius computation (lines 163-166), the
recursion gate (line 168), and the child loop.  The polygon and border draw
calls are rendering output and are not modelled. -/
def draw_dir_entry (cullMinAngle cullMaxAngle cullMaxRadius scale : α)
    (e : DirEntry) (dist : Nat) (sa ea : α) (enable_recursion : Bool) :
    List (Slice α) :=
  if cullMaxAngle < cullMinAngle ∧ (cullMaxAngle < sa ∧ ea < cullMinAngle) then []
  else if ¬ cullMaxAngle < cullMinAngle ∧ (cullMaxAngle < sa ∨ ea < cullMinAngle) then []
  else
    let radius : α :=
      if enable_recursion && e.subdir.isSome then ringRadius dist else N
    if enable_recursion = true ∧ radius < cullMaxRadius then
      match e.subdir with
      | some ch => layoutSlices e.size scale sa ea ch
      | none => []
    else []

/-- Follows the spec wording of angular subdivision, for comparison with the
code: each child of nonzero size receives its span `angleDelta_i` in listing
order, contiguously from the start angle, with recursion enabled; zero-size
children are skipped entirely. -/
def specChildSpans (psize : Nat) (sa ea : α) : List DirEntry → Nat → α → List (Slice α)
  | [], _, _ => []
  | c :: rest, i, angle =>
    if c.size = 0 then specChildSpans psize sa ea rest (i + 1) angle
    else ⟨i, angle, deltaOf psize sa ea c, true⟩ ::
      specChildSpans psize sa ea rest (i + 1) (angle + deltaOf psize sa ea c)

/-- Spec-side subdivision of a full child list starting at the start angle. -/
def specSpans (psize : Nat) (sa ea : α) (ch : List DirEntry) : List (Slice α) :=
  specChildSpans psize sa ea ch 0 sa

/-- Total angular span of a list of slices. -/
def sumDeltas (l : List (Slice α)) : α := (l.map Slice.delta).sum

@[simp] theorem sumDeltas_nil : sumDeltas ([] : List (Slice α)) = 0 := rfl

@[simp] theorem sumDeltas_cons (s : Slice α) (l : List (Slice α)) :
    sumDeltas (s :: l) = s.delta + sumDeltas l := by
  simp [sumDeltas]

/-- The slices cover contiguous, non-overlapping spans starting at the given
angle, each slice starting where the previous one ends (spec wording). -/
def contiguousFrom : α → List (Slice α) → Prop
  | _, [] => True
  | a, s :: rest => s.start = a ∧ contiguousFrom (a + s.delta) rest

mutual

/-- The picker `find_file` (main.rs lines 338-362) and its child loop (lines
349-358).  The loop accumulates the same per-child `angle_delta` as the layout
and descends into the first child whose span end passes the query angle,
appending that child index to the returned path (deepest index first). -/
def find_file (e : DirEntry) (selA selR : α) (d : Nat) (sa ea : α) : List Nat :=
  if selR < findRadius e d then []
  else
    match e with
    | .mk _ _ none => []
    | .mk _ psz (some ch) => findFileGo psz selA selR d sa ea ch 0 sa

def findFileGo (psize : Nat) (selA selR : α) (d : Nat) (sa ea : α) :
    List DirEntry → Nat → α → List Nat
  | [], _, _ => []
  | c :: rest, i, angle =>
    let delta := deltaOf psize sa ea c
    if selA < angle + delta then
      find_file c selA selR (d + 1) angle (angle + delta) ++ [i]
    else
      findFileGo psize selA selR d sa ea rest (i + 1) (angle + delta)

end

/-- Whether the child loop of `draw_dir_entry` executes the angle computation
of main.rs line 176 with a zero divisor: the division by `dir_entry.size` runs
exactly once per child of nonzero size (zero-size children are skipped at line
174 before the division). -/
def layoutDividesByZero (psize : Nat) (ch : List DirEntry) : Bool :=
  psize == 0 && ch.any (fun c => !(c.size == 0))

/-- Whether `find_file` executes the angle computation of main.rs line 351
with a zero divisor: the first loop iteration always divides by
`dir_entry.size`, so a division by zero happens as soon as the node has size
zero, a nonempty child list, and the query radius is not below the node
radius. -/
def findDividesByZero (e : DirEntry) (selR : α) (d : Nat) : Bool :=
  match e.subdir with
  | none => false
  | some ch => !(decide (selR < findRadius e d)) && !ch.isEmpty && e.size == 0

/-- A path of child indices is structurally valid from a node: each index in
turn is in bounds for the children of the node reached so far. -/
def validPath : DirEntry → List Nat → Prop
  | _, [] => True
  | e, i :: rest =>
    match e.subdir with
    | none => False
    | some ch => ∃ hk : i < ch.length, validPath (ch.get ⟨i, hk⟩) rest

/-- The view state consumed by the zoom handler: mirrors the `MyWindowHandler`
fields it reads and writes (main.rs lines 244-258): `center_pos`, `scale`,
`mouse_pos`, `window_size`.  The derived culling fields are recomputed from
these by code (main.rs lines 302-335) that no claim inspects, so they are kept
outside the state. -/
structure ViewState (α : Type) where
  centerX : α
  centerY : α
  scale : α
  windowX : Nat
  windowY : Nat
  mouseX : α
  mouseY : α

/-- The bounds reclamping part of `update_view` (main.rs lines 261-299):
minimum scale, then clamping of the center position against the square
viewport, in source order (upper clamp before lower clamp on each axis). -/
def update_view (s : ViewState α) : ViewState α :=
  let minScale : α := (min s.windowX s.windowY : Nat) / (2 * (N + 1))
  let scale1 := if s.scale < minScale then minScale else s.scale
  let wx : α := s.windowX
  let wy : α := s.windowY
  let left := if wy < wx then (wx - wy) / 2 else 0
  let right := if wy < wx then (wx + wy) / 2 else wx
  let top := if wy < wx then 0 else (wy - wx) / 2
  let bottom := if wy < wx then wy else (wy + wx) / 2
  let cxmax := left + scale1 * (N + 1)
  let cx1 := if cxmax < s.centerX then cxmax else s.centerX
  let cxmin := right - scale1 * (N + 1)
  let cx2 := if cx1 < cxmin then cxmin else cx1
  let cymax := top + scale1 * (N + 1)
  let cy1 := if cymax < s.centerY then cymax else s.centerY
  let cymin := bottom - scale1 * (N + 1)
  let cy2 := if cy1 < cymin then cymin else cy1
  { s with scale := scale1, centerX := cx2, centerY := cy2 }

/-- The zoom update of `on_mouse_wheel_scroll` (main.rs lines 419-421) before
reclamping: `ratio = 1.0 + 0.1 * delta`, `scale *= ratio`,
`center = mouse + (center - mouse) * ratio`. -/
def zoomStep (s : ViewState α) (delta : α) : ViewState α :=
  let ratio := 1 + 1 / 10 * delta
  { s with
      scale := s.scale * ratio,
      centerX := s.mouseX + (s.centerX - s.mouseX) * ratio,
      centerY := s.mouseY + (s.centerY - s.mouseY) * ratio }

/-- The full scroll handler (main.rs lines 417-424): the zoom update followed
by `update_view`. -/
def on_mouse_wheel_scroll (s : ViewState α) (delta : α) : ViewState α :=
  update_view (zoomStep s delta)

/-! Helper lemmas about the layout loop and the picker. -/

theorem deltaOf_zero (psize : Nat) (sa ea : α) (c : DirEntry) (h : c.size = 0) :
    deltaOf psize sa ea c = 0 := by
  simp [deltaOf, h]

/-- When every nonzero child is above the one-pixel threshold, the layout loop
never merges: it emits exactly the spec-side subdivision and ends with no
carry. -/
theorem layoutGo_no_merge (psize : Nat) (scale sa ea : α) :
    ∀ (rest : List DirEntry) (i : Nat) (angle : α),
      (∀ c ∈ rest, c.size ≠ 0 → 1 ≤ deltaOf psize sa ea c * scale * N) →
      layoutGoFull psize scale sa ea rest i angle 0 none =
        (specChildSpans psize sa ea rest i angle, 0) := by
  intro rest
  induction rest with
  | nil => intro i angle _; simp [layoutGoFull, specChildSpans]
  | cons c rest ih =>
    intro i angle h
    by_cases hz : c.size = 0
    · simp only [layoutGoFull, specChildSpans, if_pos hz]
      exact ih _ _ (fun x hx => h x (List.mem_cons_of_mem _ hx))
    · have hth := h c (List.mem_cons_self _ _) hz
      simp only [layoutGoFull, specChildSpans, if_neg hz, if_pos hth]
      rw [ih _ _ (fun x hx => h x (List.mem_cons_of_mem _ hx))]

/-- Sum of all per-child spans of a child list. -/
theorem sum_deltaOf (psize : Nat) (sa ea : α) :
    ∀ ch : List DirEntry,
      (ch.map (deltaOf psize sa ea)).sum = ((sumSizes ch : α) / psize) * (ea - sa) := by
  intro ch
  induction ch with
  | nil => simp [sumSizes]
  | cons c rest ih =>
    rw [List.map_cons, List.sum_cons, ih, sumSizes_cons, Nat.cast_add, add_div, add_mul]
    rfl

/-- Invariant of the layout loop: the emitted slices are contiguous from the
current angle, and their spans plus the final carry account exactly for the
current carry plus all remaining per-child spans. -/
theorem layoutGo_spans (psize : Nat) (scale sa ea : α) :
    ∀ (rest : List DirEntry) (i : Nat) (angle carry : α) (rep : Option Nat),
      (rep = none → carry = 0) →
      contiguousFrom angle (layoutGoFull psize scale sa ea rest i angle carry rep).1 ∧
      sumDeltas (layoutGoFull psize scale sa ea rest i angle carry rep).1 +
          (layoutGoFull psize scale sa ea rest i angle carry rep).2 =
        carry + (rest.map (deltaOf psize sa ea)).sum := by
  intro rest
  induction rest with
  | nil =>
    intro i angle carry rep _
    simp [layoutGoFull, contiguousFrom]
  | cons c rest ih =>
    intro i angle carry rep hrep
    by_cases hz : c.size = 0
    · have h0 : deltaOf psize sa ea c = 0 := deltaOf_zero psize sa ea c hz
      simp only [layoutGoFull, if_pos hz, List.map_cons, List.sum_cons, h0]
      have := ih (i + 1) angle carry rep hrep
      refine ⟨this.1, ?_⟩
      rw [this.2]; ring
    · by_cases h1 : 1 ≤ deltaOf psize sa ea c * scale * N
      · rcases rep with _ | r
        · have hc0 : carry = 0 := hrep rfl
          subst hc0
          simp only [layoutGoFull, if_neg hz, if_pos h1]
          have := ih (i + 1) (angle + deltaOf psize sa ea c) 0 none (fun _ => rfl)
          refine ⟨⟨rfl, by simpa using this.1⟩, ?_⟩
          simp only [List.map_cons, List.sum_cons, sumDeltas_cons]
          have h2 := this.2
          linarith
        · simp only [layoutGoFull, if_neg hz, if_pos h1]
          have := ih (i + 1) (angle + carry + deltaOf psize sa ea c) 0 none (fun _ => rfl)
          refine ⟨⟨rfl, rfl, by simpa using this.1⟩, ?_⟩
          simp only [List.map_cons, List.sum_cons, sumDeltas_cons]
          have h2 := this.2
          linarith
      · by_cases h2 : 1 ≤ (carry + deltaOf psize sa ea c) * scale * N
        · simp only [layoutGoFull, if_neg hz, if_neg h1, if_pos h2]
          have := ih (i + 1) (angle + (carry + deltaOf psize sa ea c)) 0 none (fun _ => rfl)
          refine ⟨⟨rfl, by simpa using this.1⟩, ?_⟩
          simp only [List.map_cons, List.sum_cons, sumDeltas_cons]
          have h3 := this.2
          linarith
        · simp only [layoutGoFull, if_neg hz, if_neg h1, if_neg h2]
          have := ih (i + 1) angle (carry + deltaOf psize sa ea c)
            (some (rep.getD i)) (by simp)
          refine ⟨this.1, ?_⟩
          simp only [List.map_cons, List.sum_cons]
          have h3 := this.2
          linarith

/-- Characterization of the recursion-enabled slices emitted by the layout
loop: a slice with recursion enabled belongs to the k-th remaining child of
nonzero size, carries exactly that child's span, and starts at the current
position (angle plus pending carry) plus the spans of all the children
before it. -/
theorem layoutGo_rec_mem (psize : Nat) (scale sa ea : α) :
    ∀ (rest : List DirEntry) (i0 : Nat) (angle carry : α) (rep : Option Nat),
      (rep = none → carry = 0) →
      ∀ s : Slice α,
        s ∈ (layoutGoFull psize scale sa ea rest i0 angle carry rep).1 →
        s.recur = true →
        ∃ k, ∃ hk : k < rest.length,
          s.idx = i0 + k ∧
          s.delta = deltaOf psize sa ea (rest.get ⟨k, hk⟩) ∧
          s.start = angle + carry + ((rest.take k).map (deltaOf psize sa ea)).sum := by
  intro rest
  induction rest with
  | nil =>
    intro i0 angle carry rep _ s hs _
    simp [layoutGoFull] at hs
  | cons c rest ih =>
    intro i0 angle carry rep hrep s hs hrec
    by_cases hz : c.size = 0
    · rw [layoutGoFull, if_pos hz] at hs
      obtain ⟨k, hk, h1, h2, h3⟩ := ih (i0 + 1) angle carry rep hrep s hs hrec
      refine ⟨k + 1, by simpa using Nat.succ_lt_succ hk, by omega, by simpa using h2, ?_⟩
      rw [h3, List.take_succ_cons, List.map_cons, List.sum_cons,
        deltaOf_zero psize sa ea c hz]
      ring
    · by_cases h1 : 1 ≤ deltaOf psize sa ea c * scale * N
      · rcases rep with _ | r
        · have hc0 : carry = 0 := hrep rfl
          subst hc0
          rw [layoutGoFull] at hs
          simp only [if_neg hz, if_pos h1] at hs
          rcases List.mem_cons.1 hs with h | h
          · subst h
            exact ⟨0, by simp, by simp, by simp, by simp⟩
          · obtain ⟨k, hk, ha, hb, hc⟩ := ih (i0 + 1) (angle + deltaOf psize sa ea c) 0
              none (fun _ => rfl) s h hrec
            refine ⟨k + 1, by simpa using Nat.succ_lt_succ hk, by omega, by simpa using hb, ?_⟩
            rw [hc, List.take_succ_cons, List.map_cons, List.sum_cons]
            ring
        · rw [layoutGoFull] at hs
          simp only [if_neg hz, if_pos h1] at hs
          rcases List.mem_cons.1 hs with h | h
          · subst h
            simp at hrec
          · rcases List.mem_cons.1 h with h | h
            · subst h
              exact ⟨0, by simp, by simp, by simp, by simp⟩
            · obtain ⟨k, hk, ha, hb, hc⟩ := ih (i0 + 1)
                (angle + carry + deltaOf psize sa ea c) 0 none (fun _ => rfl) s h hrec
              refine ⟨k + 1, by simpa using Nat.succ_lt_succ hk, by omega,
                by simpa using hb, ?_⟩
              rw [hc, List.take_succ_cons, List.map_cons, List.sum_cons]
              ring
      · by_cases h2 : 1 ≤ (carry + deltaOf psize sa ea c) * scale * N
        · rw [layoutGoFull] at hs
          simp only [if_neg hz, if_neg h1, if_pos h2] at hs
          rcases List.mem_cons.1 hs with h | h
          · subst h
            simp at hrec
          · obtain ⟨k, hk, ha, hb, hc⟩ := ih (i0 + 1)
              (angle + (carry + deltaOf psize sa ea c)) 0 none (fun _ => rfl) s h hrec
            refine ⟨k + 1, by simpa using Nat.succ_lt_succ hk, by omega,
              by simpa using hb, ?_⟩
            rw [hc, List.take_succ_cons, List.map_cons, List.sum_cons]
            ring
        · rw [layoutGoFull] at hs
          simp only [if_neg hz, if_neg h1, if_neg h2] at hs
          obtain ⟨k, hk, ha, hb, hc⟩ := ih (i0 + 1) angle
            (carry + deltaOf psize sa ea c) (some (rep.getD i0)) (by simp) s hs hrec
          refine ⟨k + 1, by simpa using Nat.succ_lt_succ hk, by omega,
            by simpa using hb, ?_⟩
          rw [hc, List.take_succ_cons, List.map_cons, List.sum_cons]
          ring

theorem find_file_none (nm : String) (sz : Nat) (selA selR : α) (d : Nat) (sa ea : α) :
    find_file (DirEntry.mk nm sz none) selA selR d sa ea = [] := by
  rw [find_file]
  split <;> rfl

theorem find_file_some (nm : String) (psz : Nat) (ch : List DirEntry)
    (selA selR : α) (d : Nat) (sa ea : α) :
    find_file (DirEntry.mk nm psz (some ch)) selA selR d sa ea =
      if selR < ringRadius d then [] else findFileGo psz selA selR d sa ea ch 0 sa := by
  rw [find_file]
  simp [findRadius]

/-- The picker loop either selects nothing or descends into the k-th child
over some span, appending that child's absolute index. -/
theorem findFileGo_cases (psize : Nat) (selA selR : α) (d : Nat) (sa ea : α) :
    ∀ (rest : List DirEntry) (i0 : Nat) (angle : α),
      findFileGo psize selA selR d sa ea rest i0 angle = [] ∨
      ∃ k, ∃ hk : k < rest.length, ∃ a b : α,
        findFileGo psize selA selR d sa ea rest i0 angle =
          find_file (rest.get ⟨k, hk⟩) selA selR (d + 1) a b ++ [i0 + k] := by
  intro rest
  induction rest with
  | nil => intro i0 angle; left; rw [findFileGo]
  | cons c rest ih =>
    intro i0 angle
    rw [findFileGo]
    by_cases h : selA < angle + deltaOf psize sa ea c
    · right
      refine ⟨0, by simp, angle, angle + deltaOf psize sa ea c, ?_⟩
      simp [if_pos h]
    · simp only [if_neg h]
      rcases ih (i0 + 1) (angle + deltaOf psize sa ea c) with h2 | ⟨k, hk, a, b, h2⟩
      · left; exact h2
      · right
        refine ⟨k + 1, by simpa using Nat.succ_lt_succ hk, a, b, ?_⟩
        rw [h2]
        simp only [List.get_cons_succ]
        congr 2
        omega

/-- If the query angle lies strictly inside the k-th remaining child's span,
the picker loop descends into exactly that child over exactly that span. -/
theorem findFileGo_select (psize : Nat) (selA selR : α) (d : Nat) (sa ea : α) :
    ∀ (rest : List DirEntry) (k : Nat) (hk : k < rest.length) (i0 : Nat) (angle : α),
      (∀ c ∈ rest, 0 ≤ deltaOf psize sa ea c) →
      angle + ((rest.take k).map (deltaOf psize sa ea)).sum < selA →
      selA < angle + ((rest.take k).map (deltaOf psize sa ea)).sum +
        deltaOf psize sa ea (rest.get ⟨k, hk⟩) →
      findFileGo psize selA selR d sa ea rest i0 angle =
        find_file (rest.get ⟨k, hk⟩) selA selR (d + 1)
          (angle + ((rest.take k).map (deltaOf psize sa ea)).sum)
          (angle + ((rest.take k).map (deltaOf psize sa ea)).sum +
            deltaOf psize sa ea (rest.get ⟨k, hk⟩)) ++ [i0 + k] := by
  intro rest
  induction rest with
  | nil => intro k hk; exact absurd hk (by simp)
  | cons c rest ih =>
    intro k hk i0 angle hnn h1 h2
    match k with
    | 0 =>
      simp only [List.take_zero, List.map_nil, List.sum_nil, add_zero, List.get] at h1 h2 ⊢
      rw [findFileGo, if_pos h2]
    | k + 1 =>
      rw [List.take_succ_cons, List.map_cons, List.sum_cons] at h1 h2
      have hs0 : 0 ≤ ((rest.take k).map (deltaOf psize sa ea)).sum := by
        apply List.sum_nonneg
        intro x hx
        obtain ⟨c2, hc2, rfl⟩ := List.mem_map.1 hx
        exact hnn c2 (List.mem_cons_of_mem _ (List.mem_of_mem_take hc2))
      have hcond : ¬ selA < angle + deltaOf psize sa ea c := by
        push_neg
        calc angle + deltaOf psize sa ea c
            ≤ angle + (deltaOf psize sa ea c + ((rest.take k).map (deltaOf psize sa ea)).sum) := by
              linarith
          _ ≤ selA := le_of_lt h1
      rw [findFileGo, if_neg hcond]
      have hk2 : k < rest.length := by simpa using Nat.lt_of_succ_lt_succ hk
      have := ih k hk2 (i0 + 1) (angle + deltaOf psize sa ea c)
        (fun c2 hc2 => hnn c2 (List.mem_cons_of_mem _ hc2))
        (by linarith) (by rw [List.get_cons_succ] at h2; linarith)
      rw [this]
      simp only [List.get_cons_succ]
      have e1 : angle + deltaOf psize sa ea c + ((rest.take k).map (deltaOf psize sa ea)).sum =
          angle + (deltaOf psize sa ea c + ((rest.take k).map (deltaOf psize sa ea)).sum) := by
        ring
      rw [e1]
      congr 2
      omega

/-- Every span the picker computes for a sibling is nonnegative as soon as one
of them is positive (the sizes are naturals, so all spans share the sign of
the angular span). -/
theorem deltaOf_nonneg_of_pos (psize : Nat) (sa ea : α) (c c0 : DirEntry)
    (h : 0 < deltaOf psize sa ea c0) : 0 ≤ deltaOf psize sa ea c := by
  unfold deltaOf at h ⊢
  rcases le_or_lt (ea - sa) 0 with hle | hlt
  · exfalso
    have : (c0.size : α) / (psize : α) * (ea - sa) ≤ 0 :=
      mul_nonpos_of_nonneg_of_nonpos (div_nonneg (Nat.cast_nonneg _) (Nat.cast_nonneg _)) hle
    linarith
  · exact mul_nonneg (div_nonneg (Nat.cast_nonneg _) (Nat.cast_nonneg _)) hlt.le

/-- Structural validity of every picker result, by strong induction on the
size of the queried node. -/
theorem validPath_aux :
    ∀ (n : Nat) (e : DirEntry), sizeOf e ≤ n →
      ∀ (selA selR : α) (d : Nat) (sa ea : α),
        validPath e (find_file e selA selR d sa ea).reverse := by
  intro n
  induction n using Nat.strong_induction_on with
  | _ n ih =>
    intro e he selA selR d sa ea
    rcases e with ⟨nm, sz, _ | ch⟩
    · rw [find_file_none]
      simp [validPath]
    · rw [find_file_some]
      split
      · simp [validPath]
      · rcases findFileGo_cases (α := α) sz selA selR d sa ea ch 0 sa with h | ⟨k, hk, a, b, h⟩
        · rw [h]; simp [validPath]
        · rw [h]
          simp only [List.reverse_append, List.reverse_cons, List.reverse_nil,
            List.nil_append, List.singleton_append, Nat.zero_add]
          rw [validPath]
          simp only [DirEntry.subdir_mk]
          refine ⟨hk, ?_⟩
          have hmem : ch.get ⟨k, hk⟩ ∈ ch := List.get_mem ch k hk
          have hlt1 : sizeOf (ch.get ⟨k, hk⟩) < sizeOf ch := List.sizeOf_lt_of_mem hmem
          have hlt2 : sizeOf ch < sizeOf (DirEntry.mk nm sz (some ch)) := by
            simp only [DirEntry.mk.sizeOf_spec, Option.some.sizeOf_spec]
            omega
          exact ih (sizeOf (ch.get ⟨k, hk⟩)) (by omega) _ (Nat.le_refl _) selA selR (d + 1) a b

theorem find_file_above (e : DirEntry) (selA selR : α) (d : Nat) (sa ea : α)
    (h : selR < findRadius e d) : find_file e selA selR d sa ea = [] := by
  rw [find_file.eq_def, if_pos h]

/-- Any slice emitted by a `draw_dir_entry` call comes from the child loop
over the node's child list. -/
theorem mem_draw_dir_entry {cma cmb cmr scale : α} {e : DirEntry} {dist : Nat}
    {sa ea : α} {er : Bool} {s : Slice α}
    (hs : s ∈ draw_dir_entry cma cmb cmr scale e dist sa ea er) :
    ∃ ch, e.subdir = some ch ∧ s ∈ layoutSlices e.size scale sa ea ch := by
  rw [draw_dir_entry] at hs
  split at hs
  · simp at hs
  split at hs
  · simp at hs
  all_goals try split at hs
  all_goals try split at hs
  all_goals try simp at hs
  all_goals exact ⟨_, by assumption, hs.2⟩

end Geometry

/-- C2: within a nonzero-size parent's span, each child receives the angular
span `angleDelta_i = size_i / parentSize * (endAngle - startAngle)` in listing
order, contiguous and non-overlapping (whenever every nonzero child clears the
merge threshold, the layout emits exactly the spec-side subdivision); in
particular the tree root(100) with children A(60), B(40) laid out over
[0, 2*pi) gives A the span [0, 1.2*pi) and B the span [1.2*pi, 2*pi). -/
theorem child_span_assignment :
    (∀ (psize : Nat) (scale sa ea : ℝ) (ch : List DirEntry),
      psize ≠ 0 →
      (∀ c ∈ ch, c.size ≠ 0 → 1 ≤ deltaOf psize sa ea c * scale * N) →
      layoutSlices psize scale sa ea ch = specSpans psize sa ea ch) ∧
    layoutSlices (α := ℝ) 100 1 0 (2 * Real.pi)
        [DirEntry.mk "A" 60 none, DirEntry.mk "B" 40 none] =
      [⟨0, 0, 6 / 5 * Real.pi, true⟩,
       ⟨1, 6 / 5 * Real.pi, 4 / 5 * Real.pi, true⟩] := by
  have hgen : ∀ (psize : Nat) (scale sa ea : ℝ) (ch : List DirEntry),
      psize ≠ 0 →
      (∀ c ∈ ch, c.size ≠ 0 → 1 ≤ deltaOf psize sa ea c * scale * N) →
      layoutSlices psize scale sa ea ch = specSpans psize sa ea ch := by
    intro psize scale sa ea ch _ h
    unfold layoutSlices specSpans
    rw [layoutGo_no_merge psize scale sa ea ch 0 sa h]
  refine ⟨hgen, ?_⟩
  have hπ : (3 : ℝ) < Real.pi := Real.pi_gt_three
  have hth : ∀ c ∈ [DirEntry.mk "A" 60 none, DirEntry.mk "B" 40 none],
      c.size ≠ 0 → 1 ≤ deltaOf 100 (0 : ℝ) (2 * Real.pi) c * 1 * N := by
    intro c hc _
    rcases List.mem_cons.1 hc with rfl | hc
    · unfold deltaOf N
      simp only [DirEntry.size_mk]
      push_cast
      nlinarith
    rcases List.mem_cons.1 hc with rfl | hc
    · unfold deltaOf N
      simp only [DirEntry.size_mk]
      push_cast
      nlinarith
    · exact absurd hc (by simp)
  rw [hgen 100 1 0 (2 * Real.pi) _ (by decide) hth]
  unfold specSpans
  simp only [specChildSpans, DirEntry.size_mk]
  norm_num [deltaOf, Slice.mk.injEq]
  all_goals constructorm* _ ∧ _ <;> ring

/-- Witness for C2 at concrete inputs: parent size 100, children of sizes 60
and 40 over the span [0, 1) at scale 10 (all children above the merge
threshold). -/
theorem child_span_assignment_witness :
    (100 : Nat) ≠ 0 ∧
    (∀ c ∈ [DirEntry.mk "A" 60 none, DirEntry.mk "B" 40 none],
      c.size ≠ 0 → 1 ≤ deltaOf 100 (0 : ℝ) 1 c * 10 * N) ∧
    layoutSlices (α := ℝ) 100 10 0 1 [DirEntry.mk "A" 60 none, DirEntry.mk "B" 40 none] =
      specSpans 100 0 1 [DirEntry.mk "A" 60 none, DirEntry.mk "B" 40 none] := by
  have h1 : (100 : Nat) ≠ 0 := by decide
  have h2 : ∀ c ∈ [DirEntry.mk "A" 60 none, DirEntry.mk "B" 40 none],
      c.size ≠ 0 → 1 ≤ deltaOf 100 (0 : ℝ) 1 c * 10 * N := by
    intro c hc _
    rcases List.mem_cons.1 hc with rfl | hc
    · norm_num [deltaOf, N]
    rcases List.mem_cons.1 hc with rfl | hc
    · norm_num [deltaOf, N]
    · exact absurd hc (by simp)
  exact ⟨h1, h2, child_span_assignment.1 100 10 0 1 _ h1 h2⟩

/-- C3 counterexample: with parent size 100, children of sizes 60 and 40 over
the span [0, 1) at scale 1/1000, both children stay below the one-pixel
threshold, the trailing carry is never flushed, and the loop draws nothing:
the emitted spans sum to 0, not to the parent span 1 - 0 = 1. -/
theorem layout_partition_counterexample :
    sumDeltas (layoutSlices (α := ℝ) 100 (1 / 1000) 0 1
        [DirEntry.mk "A" 60 none, DirEntry.mk "B" 40 none]) = 0 ∧
    (1 : ℝ) - 0 ≠ 0 := by
  constructor
  · norm_num [layoutSlices, layoutGoFull, deltaOf, N, Option.getD]
  · norm_num

/-- C3 amended: for every layout call on a directory node whose size equals
the sum of its children's sizes, the recursive draw calls emitted at that
level are contiguous from the start angle (no span is drawn twice, no gap
between drawn spans), and their spans sum exactly (in exact arithmetic) to
`endAngle - startAngle` minus the final unflushed carry: a trailing run of
children whose combined footprint stays below the one-pixel threshold is
omitted rather than drawn. -/
theorem layout_spans_partition (psize : Nat) (scale sa ea : ℝ) (ch : List DirEntry)
    (hp : psize ≠ 0) (hsum : sumSizes ch = psize) :
    contiguousFrom sa (layoutSlices psize scale sa ea ch) ∧
    sumDeltas (layoutSlices psize scale sa ea ch) + layoutCarry psize scale sa ea ch =
      ea - sa := by
  have h := layoutGo_spans psize scale sa ea ch 0 sa 0 none (fun _ => rfl)
  unfold layoutSlices layoutCarry
  refine ⟨h.1, ?_⟩
  rw [h.2, sum_deltaOf psize sa ea ch, hsum,
    div_self (Nat.cast_ne_zero.2 hp), one_mul, zero_add]

/-- Witness for C3 (amended) at concrete inputs: the same inputs as the
counterexample, where the whole span ends up in the unflushed carry. -/
theorem layout_spans_partition_witness :
    (100 : Nat) ≠ 0 ∧
    sumSizes [DirEntry.mk "A" 60 none, DirEntry.mk "B" 40 none] = 100 ∧
    (contiguousFrom (0 : ℝ) (layoutSlices 100 (1 / 1000) 0 1
        [DirEntry.mk "A" 60 none, DirEntry.mk "B" 40 none]) ∧
      sumDeltas (layoutSlices (α := ℝ) 100 (1 / 1000) 0 1
          [DirEntry.mk "A" 60 none, DirEntry.mk "B" 40 none]) +
        layoutCarry 100 (1 / 1000) 0 1
          [DirEntry.mk "A" 60 none, DirEntry.mk "B" 40 none] = 1 - 0) := by
  have h1 : (100 : Nat) ≠ 0 := by decide
  have h2 : sumSizes [DirEntry.mk "A" 60 none, DirEntry.mk "B" 40 none] = 100 := by decide
  exact ⟨h1, h2, layout_spans_partition 100 (1 / 1000) 0 1 _ h1 h2⟩

/-- C4: the picker is a left inverse of the layout.  If a layout call on a
directory node over the span [startAngle, endAngle) emitted a
recursion-enabled (non-merged) slice, then for every query angle strictly
inside that slice's span and every query radius at or above the node's own
ring radius but below the slice child's radius, `find_file` on the same node
over the same span returns exactly that slice's child index path. -/
theorem picker_inverts_layout
    (cullMinAngle cullMaxAngle cullMaxRadius scale : ℝ)
    (e : DirEntry) (ch : List DirEntry) (he : e.subdir = some ch)
    (dist : Nat) (sa ea selA selR : ℝ) (s : Slice ℝ)
    (hs : s ∈ draw_dir_entry cullMinAngle cullMaxAngle cullMaxRadius scale e dist sa ea true)
    (hrec : s.recur = true)
    (hq1 : s.start < selA) (hq2 : selA < s.start + s.delta)
    (hr1 : ringRadius dist ≤ selR)
    (hr2 : selR < findRadius (ch.getD s.idx default) (dist + 1)) :
    find_file e selA selR dist sa ea = [s.idx] := by
  obtain ⟨ch2, he2, hs2⟩ := mem_draw_dir_entry hs
  rw [he] at he2
  obtain rfl : ch = ch2 := Option.some.inj he2
  rcases e with ⟨nm, psz, o⟩
  simp only [DirEntry.subdir_mk] at he
  subst he
  simp only [DirEntry.size_mk] at hs2
  unfold layoutSlices at hs2
  obtain ⟨k, hk, hidx, hdelta, hstart⟩ :=
    layoutGo_rec_mem psz scale sa ea ch 0 sa 0 none (fun _ => rfl) s hs2 hrec
  rw [add_zero] at hstart
  have hpos : 0 < s.delta := by linarith
  have hnn : ∀ c ∈ ch, 0 ≤ deltaOf psz sa ea c := by
    intro c _
    exact deltaOf_nonneg_of_pos psz sa ea c (ch.get ⟨k, hk⟩) (hdelta ▸ hpos)
  rw [find_file_some, if_neg (not_lt.2 hr1)]
  have hsel := findFileGo_select psz selA selR dist sa ea ch k hk 0 sa hnn
    (by rw [hstart] at hq1; exact hq1)
    (by rw [hstart, hdelta] at hq2; exact hq2)
  rw [hsel]
  have hgetD : ch.getD s.idx default = ch.get ⟨k, hk⟩ := by
    rw [hidx, Nat.zero_add, List.getD_eq_getElem ch default hk, List.get_eq_getElem]
  rw [find_file_above _ _ _ _ _ _ (by rw [hgetD] at hr2; exact hr2)]
  simp [hidx]

/-- Witness for C4 at concrete inputs: the parent p(100) with children A(60),
B(40) over [0, 1) at scale 10 emits the recursion-enabled slice for A over
[0, 3/5); the query (angle 1/2, radius 2) lies inside it and find_file
returns the path [0]. -/
theorem picker_inverts_layout_witness :
    ((DirEntry.mk "p" 100 (some [DirEntry.mk "A" 60 none, DirEntry.mk "B" 40 none])).subdir =
      some [DirEntry.mk "A" 60 none, DirEntry.mk "B" 40 none]) ∧
    ((⟨0, 0, 3 / 5, true⟩ : Slice ℝ) ∈
      draw_dir_entry 0 10 100 10
        (DirEntry.mk "p" 100 (some [DirEntry.mk "A" 60 none, DirEntry.mk "B" 40 none]))
        1 0 1 true) ∧
    (⟨0, 0, 3 / 5, true⟩ : Slice ℝ).recur = true ∧
    (⟨0, 0, 3 / 5, true⟩ : Slice ℝ).start < (1 / 2 : ℝ) ∧
    (1 / 2 : ℝ) < (⟨0, 0, 3 / 5, true⟩ : Slice ℝ).start + (⟨0, 0, 3 / 5, true⟩ : Slice ℝ).delta ∧
    ringRadius 1 ≤ (2 : ℝ) ∧
    (2 : ℝ) < findRadius
      ([DirEntry.mk "A" 60 none, DirEntry.mk "B" 40 none].getD
        (⟨0, 0, 3 / 5, true⟩ : Slice ℝ).idx default) (1 + 1) ∧
    find_file (DirEntry.mk "p" 100 (some [DirEntry.mk "A" 60 none, DirEntry.mk "B" 40 none]))
      ((1 : ℝ) / 2) 2 1 0 1 = [0] := by
  have he : (DirEntry.mk "p" 100
      (some [DirEntry.mk "A" 60 none, DirEntry.mk "B" 40 none])).subdir =
      some [DirEntry.mk "A" 60 none, DirEntry.mk "B" 40 none] := rfl
  have hs : (⟨0, 0, 3 / 5, true⟩ : Slice ℝ) ∈
      draw_dir_entry 0 10 100 10
        (DirEntry.mk "p" 100 (some [DirEntry.mk "A" 60 none, DirEntry.mk "B" 40 none]))
        1 0 1 true := by
    norm_num [draw_dir_entry, layoutSlices, layoutGoFull, deltaOf, N, ringRadius]
  have hrec : (⟨0, 0, 3 / 5, true⟩ : Slice ℝ).recur = true := rfl
  have hq1 : (⟨0, 0, 3 / 5, true⟩ : Slice ℝ).start < (1 / 2 : ℝ) := by norm_num
  have hq2 : (1 / 2 : ℝ) <
      (⟨0, 0, 3 / 5, true⟩ : Slice ℝ).start + (⟨0, 0, 3 / 5, true⟩ : Slice ℝ).delta := by
    norm_num
  have hr1 : ringRadius 1 ≤ (2 : ℝ) := by norm_num [ringRadius, N]
  have hr2 : (2 : ℝ) < findRadius
      ([DirEntry.mk "A" 60 none, DirEntry.mk "B" 40 none].getD
        (⟨0, 0, 3 / 5, true⟩ : Slice ℝ).idx default) (1 + 1) := by
    norm_num [findRadius, N, List.getD]
  exact ⟨he, hs, hrec, hq1, hq2, hr1, hr2,
    picker_inverts_layout 0 10 100 10 _ _ he 1 0 1 (1 / 2) 2 _ hs hrec hq1 hq2 hr1 hr2⟩

/-- C6 counterexample: scrolling with delta 1 (ratio 1.1) at pointer
(500, 500) with prior center (400, 400), scale 100, in an 800x800 window
moves the center to (390, 390) (left unchanged by the reclamp), not to
(410, 410) as claimed. -/
theorem zoom_center_counterexample :
    (on_mouse_wheel_scroll (α := ℝ) ⟨400, 400, 100, 800, 800, 500, 500⟩ 1).centerX = 390 ∧
    ¬ (on_mouse_wheel_scroll (α := ℝ) ⟨400, 400, 100, 800, 800, 500, 500⟩ 1).centerX = 410 := by
  have h : on_mouse_wheel_scroll (α := ℝ) ⟨400, 400, 100, 800, 800, 500, 500⟩ 1 =
      ⟨390, 390, 110, 800, 800, 500, 500⟩ := by
    norm_num [on_mouse_wheel_scroll, zoomStep, update_view, N]
  rw [h]
  norm_num

/-- C6 amended: on scroll the zoom transition multiplies the scale by
`ratio = 1 + delta/10` and moves the center per
`center = pointer + (center - pointer) * ratio`, after which bounds are
reclamped; at the claimed inputs (ratio 1.1, pointer (500, 500), center
(400, 400), scale 100, 800x800 window) the center lands at (390, 390), not at
(410, 410). -/
theorem zoom_transition (s : ViewState ℝ) (delta : ℝ) :
    ((zoomStep s delta).scale = s.scale * (1 + 1 / 10 * delta) ∧
     (zoomStep s delta).centerX = s.mouseX + (s.centerX - s.mouseX) * (1 + 1 / 10 * delta) ∧
     (zoomStep s delta).centerY = s.mouseY + (s.centerY - s.mouseY) * (1 + 1 / 10 * delta) ∧
     on_mouse_wheel_scroll s delta = update_view (zoomStep s delta)) ∧
    on_mouse_wheel_scroll (α := ℝ) ⟨400, 400, 100, 800, 800, 500, 500⟩ 1 =
      ⟨390, 390, 110, 800, 800, 500, 500⟩ := by
  refine ⟨⟨rfl, rfl, rfl, rfl⟩, ?_⟩
  norm_num [on_mouse_wheel_scroll, zoomStep, update_view, N]

/-- C9 counterexample: a zero-size directory with one (zero-size) child and a
query radius at or above its ring radius makes `find_file` execute the
angle computation dividing by the zero parent size: division by zero is not
avoided in `find_file`. -/
theorem zero_size_division_counterexample :
    (DirEntry.mk "d" 0 (some [DirEntry.mk "c" 0 none])).size = 0 ∧
    findDividesByZero (α := ℝ)
      (DirEntry.mk "d" 0 (some [DirEntry.mk "c" 0 none])) 3 1 = true := by
  refine ⟨rfl, ?_⟩
  have hnot : ¬ ((3 : ℝ) < findRadius (DirEntry.mk "d" 0 (some [DirEntry.mk "c" 0 none])) 1) := by
    norm_num [findRadius, ringRadius, N]
  simp [findDividesByZero, hnot]

/-- C9 amended: the child loop of `draw_dir_entry` skips zero-size children
before computing any span, so a zero-size directory (all of whose children
have size zero, as the scan invariant guarantees) causes no division by zero
during layout; `find_file`, however, does execute the span computation with
the zero divisor whenever such a node has a nonempty child list and the query
radius is not below the node's radius. -/
theorem zero_size_division_guard
    (psize : Nat) (ch : List DirEntry) (hz : ∀ c ∈ ch, c.size = 0)
    (e : DirEntry) (selR : ℝ) (d : Nat) (ch2 : List DirEntry)
    (he : e.subdir = some ch2) (hne : ch2 ≠ []) (hzz : e.size = 0)
    (hrr : findRadius e d ≤ selR) :
    layoutDividesByZero psize ch = false ∧ findDividesByZero e selR d = true := by
  constructor
  · unfold layoutDividesByZero
    rcases hps : psize == 0 with _ | _
    · simp
    · simp only [Bool.true_and]
      rw [List.any_eq_false]
      intro c hc
      simp [hz c hc]
  · unfold findDividesByZero
    rw [he]
    have h1 : decide (selR < findRadius e d) = false := by
      simp [not_lt.2 hrr]
    have h2 : ch2.isEmpty = false := by
      rcases ch2 with _ | ⟨c, cs⟩
      · exact absurd rfl hne
      · rfl
    simp [h1, h2, hzz]

/-- Witness for C9 (amended) at concrete inputs. -/
theorem zero_size_division_guard_witness :
    (∀ c ∈ [DirEntry.mk "z" 0 none], c.size = 0) ∧
    (DirEntry.mk "d" 0 (some [DirEntry.mk "c" 0 none])).subdir =
      some [DirEntry.mk "c" 0 none] ∧
    ([DirEntry.mk "c" 0 none] : List DirEntry) ≠ [] ∧
    (DirEntry.mk "d" 0 (some [DirEntry.mk "c" 0 none])).size = 0 ∧
    findRadius (DirEntry.mk "d" 0 (some [DirEntry.mk "c" 0 none])) 1 ≤ (3 : ℝ) ∧
    (layoutDividesByZero 7 [DirEntry.mk "z" 0 none] = false ∧
      findDividesByZero (α := ℝ)
        (DirEntry.mk "d" 0 (some [DirEntry.mk "c" 0 none])) 3 1 = true) := by
  have hz : ∀ c ∈ [DirEntry.mk "z" 0 none], c.size = 0 := by
    intro c hc
    rcases List.mem_cons.1 hc with rfl | hc
    · rfl
    · exact absurd hc (by simp)
  have he : (DirEntry.mk "d" 0 (some [DirEntry.mk "c" 0 none])).subdir =
      some [DirEntry.mk "c" 0 none] := rfl
  have hne : ([DirEntry.mk "c" 0 none] : List DirEntry) ≠ [] := by simp
  have hzz : (DirEntry.mk "d" 0 (some [DirEntry.mk "c" 0 none])).size = 0 := rfl
  have hrr : findRadius (DirEntry.mk "d" 0 (some [DirEntry.mk "c" 0 none])) 1 ≤ (3 : ℝ) := by
    norm_num [findRadius, ringRadius, N]
  exact ⟨hz, he, hne, hzz, hrr,
    zero_size_division_guard 7 _ hz _ 3 1 _ he hne hzz hrr⟩

/-- C10: every index path returned by `find_file` is structurally valid when
read root-first (as both callers read it, after reversing): each index is in
bounds for the children of the node reached by the preceding indices, so the
drill-down walk in `on_mouse_button_down` and the hover-name walk in `on_draw`
never index out of bounds. -/
theorem find_file_path_valid (e : DirEntry) (selA selR : ℝ) (d : Nat) (sa ea : ℝ) :
    validPath e (find_file e selA selR d sa ea).reverse :=
  validPath_aux (sizeOf e) e (Nat.le_refl _) selA selR d sa ea

end DiskPie
